/-
Verification of the sparse-Merkle-tree proof verifier (ckb_smt.h).

The C code is shallowly embedded: 32-byte buffers become `List Nat` whose
entries are byte values, fixed-width reads of 32 bytes become positional
reads `List.getD i 0` over indices `0..31` (all C buffers are exactly 32
bytes, so `getD` coincides with array indexing), and every fallible C
function returning an `int` error code becomes a function into `Except Nat`
or `Nat`.  The BLAKE2b-256 primitive is external to the repository and is
modelled as an abstract argument `hash : List Nat → List Nat`;
`blake2b_update` over two 32-byte buffers becomes `hash (a ++ b)`.
-/
import Mathlib

set_option maxHeartbeats 1000000

/-! ## Error codes (enum SMTErrorCode) -/

def ERROR_INSUFFICIENT_CAPACITY : Nat := 80
def ERROR_NOT_FOUND : Nat := 81
def ERROR_INVALID_STACK : Nat := 82
def ERROR_INVALID_SIBLING : Nat := 83
def ERROR_INVALID_PROOF : Nat := 84

def _SMT_STACK_SIZE : Nat := 32

/-! ## Data model -/

/-- `smt_pair_t`: a key/value pair with the internal `order` tie-breaker. -/
structure smt_pair where
  key : List Nat
  value : List Nat
  order : Nat
deriving DecidableEq, Repr

/-- `smt_state_t`: the staging buffer.  The backing array together with
`len` is modelled as the list `pairs`; `capacity` is kept explicitly. -/
structure smt_state where
  pairs : List smt_pair
  capacity : Nat
deriving DecidableEq, Repr

/-- `memcmp(a, b, 32) == 0`: equality of the first 32 bytes.  All C key,
value and digest buffers are exactly 32 bytes long. -/
def _smt_mem_eq32 (a b : List Nat) : Bool :=
  (List.range 32).all (fun i => a.getD i 0 == b.getD i 0)

/-- `_smt_zero_value`: 1 iff all 32 bytes are zero. -/
def _smt_zero_value (v : List Nat) : Bool :=
  (List.range 32).all (fun i => v.getD i 0 == 0)

/-! ## Bit manipulation (`_smt_get_bit`, `_smt_set_bit`, `_smt_clear_bit`,
`_smt_copy_bits`, `_smt_parent_path`) -/

/-- `_smt_get_bit`: `((data[offset/8] >> (offset%8)) & 1) != 0`. -/
def _smt_get_bit (data : List Nat) (offset : Nat) : Bool :=
  ((data.getD (offset / 8) 0 >>> (offset % 8)) &&& 1) != 0

/-- `_smt_set_bit`: `data[offset/8] |= 1 << (offset%8)`. -/
def _smt_set_bit (data : List Nat) (offset : Nat) : List Nat :=
  data.set (offset / 8) (data.getD (offset / 8) 0 ||| (1 <<< (offset % 8)))

/-- `_smt_clear_bit`: `data[offset/8] &= (uint8_t)~(1 << (offset%8))`; the
mask truncated to a byte is `255 ^^^ (1 <<< (offset%8))` since
`offset % 8 < 8`. -/
def _smt_clear_bit (data : List Nat) (offset : Nat) : List Nat :=
  data.set (offset / 8) (data.getD (offset / 8) 0 &&& (255 ^^^ (1 <<< (offset % 8))))

/-- The first loop of `_smt_copy_bits`: zero the whole bytes below index
`n` (the C loop `for (i = 0; i < first_byte; i++) source[i] = 0`). -/
def _smt_zero_head_bytes : Nat → List Nat → List Nat
  | _, [] => []
  | 0, l => l
  | n + 1, _ :: rest => 0 :: _smt_zero_head_bytes n rest

/-- `_smt_copy_bits`: zero every bit at positions `0 .. first_kept - 1`. -/
def _smt_copy_bits (source : List Nat) (first_kept : Nat) : List Nat :=
  let first_byte := first_kept / 8
  (List.range' (first_byte * 8) (first_kept - first_byte * 8)).foldl
    _smt_clear_bit (_smt_zero_head_bytes first_byte source)

/-- `_smt_parent_path`. -/
def _smt_parent_path (key : List Nat) (height : Nat) : List Nat :=
  if height = 255 then List.replicate 32 0
  else _smt_copy_bits key (height + 1)

/-! ## Key comparison (`_smt_pair_cmp`) -/

/-- The key-byte loop of `_smt_pair_cmp`, over an explicit list of byte
indices (the C loop walks `31, 30, ..., 0`). -/
def _smt_key_cmp_at : List Nat → List Nat → List Nat → Int
  | [], _, _ => 0
  | i :: is, a, b =>
    let c : Int := (a.getD i 0 : Int) - (b.getD i 0 : Int)
    if c = 0 then _smt_key_cmp_at is a b else c

/-- Byte-31-first key comparison. -/
def _smt_key_cmp (a b : List Nat) : Int :=
  _smt_key_cmp_at (List.range 32).reverse a b

/-- `_smt_pair_cmp`: keys byte-31-first, then `order` ascending.  The C
return value `pa->order - pb->order` converts a `uint32_t` difference to
`int`, which is implementation-defined once the true difference leaves
`[-2^31, 2^31)`; the mathematical difference used here coincides with it
on every platform for the orders `1..len` that `normalize` assigns
(`len < 2^31`). -/
def _smt_pair_cmp (pa pb : smt_pair) : Int :=
  let c := _smt_key_cmp pa.key pb.key
  if c = 0 then (pa.order : Int) - (pb.order : Int) else c

/-- The non-strict order induced by `_smt_pair_cmp` (what `qsort` sorts by). -/
def _smt_le (pa pb : smt_pair) : Prop := _smt_pair_cmp pa pb ≤ 0

instance : DecidableRel _smt_le := fun pa pb => by
  unfold _smt_le; infer_instance

/-! ## Staging buffer operations -/

/-- The downward scan of `smt_state_fetch` / `smt_state_insert`
(`for (i = len-1; i >= 0; i--) if (memcmp(key, pairs[i].key, 32) == 0)`):
the match at the highest index wins, hence a match in the tail of the
list takes precedence over the head. -/
def _smt_find_rev (ps : List smt_pair) (key : List Nat) : Option smt_pair :=
  match ps with
  | [] => none
  | p :: rest =>
    match _smt_find_rev rest key with
    | some q => some q
    | none => if _smt_mem_eq32 key p.key then some p else none

/-- The overwrite scan of `smt_state_insert` on a full buffer: overwrite
the value of the highest-index pair whose key matches. -/
def _smt_overwrite_rev (ps : List smt_pair) (key value : List Nat) :
    Option (List smt_pair) :=
  match ps with
  | [] => none
  | p :: rest =>
    match _smt_overwrite_rev rest key value with
    | some rest2 => some (p :: rest2)
    | none =>
      if _smt_mem_eq32 key p.key then some ({ p with value := value } :: rest)
      else none

/-- `smt_state_insert`.  On the fast path the C code copies the key and the
value (the value `memcpy` uses `SMT_KEY_BYTES`, but both constants are 32)
and leaves `order` uninitialised; it is modelled as 0, which is harmless
because `normalize` overwrites every `order` before it is read. -/
def smt_state_insert (st : smt_state) (key value : List Nat) :
    Except Nat smt_state :=
  if st.pairs.length < st.capacity then
    .ok { st with pairs := st.pairs ++ [⟨key, value, 0⟩] }
  else
    match _smt_overwrite_rev st.pairs key value with
    | some ps => .ok { st with pairs := ps }
    | none => .error ERROR_INSUFFICIENT_CAPACITY

/-- `smt_state_fetch`. -/
def smt_state_fetch (st : smt_state) (key : List Nat) : Except Nat (List Nat) :=
  match _smt_find_rev st.pairs key with
  | some p => .ok p.value
  | none => .error ERROR_NOT_FOUND

/-- A sequence of `smt_state_insert` calls, stopping at the first error. -/
def smt_insert_all (st : smt_state) : List (List Nat × List Nat) →
    Except Nat smt_state
  | [] => .ok st
  | (k, v) :: rest =>
    match smt_state_insert st k v with
    | .ok st2 => smt_insert_all st2 rest
    | .error e => .error e

/-- The first loop of `smt_state_normalize`:
`pairs[i].order = len - i`.  `n` is `state->len`, `i` the running index. -/
def _smt_assign_from (n : Nat) : Nat → List smt_pair → List smt_pair
  | _, [] => []
  | i, p :: rest => { p with order := n - i } :: _smt_assign_from n (i + 1) rest

def _smt_assign_orders (ps : List smt_pair) : List smt_pair :=
  _smt_assign_from ps.length 0 ps

/-- The duplicate-removal loop of `smt_state_normalize`, after the head
`p` of the current run of equal keys has been kept: pairs key-equal to `p`
are skipped, the next differing pair starts a new run. -/
def _smt_dedup_aux (p : smt_pair) : List smt_pair → List smt_pair
  | [] => []
  | q :: rest =>
    if _smt_mem_eq32 p.key q.key then _smt_dedup_aux p rest
    else q :: _smt_dedup_aux q rest

/-- The duplicate-removal loop of `smt_state_normalize`: keep the first
pair of every run of adjacent key-equal pairs. -/
def _smt_dedup : List smt_pair → List smt_pair
  | [] => []
  | p :: rest => p :: _smt_dedup_aux p rest

/-- `smt_state_normalize`: assign orders, sort by `_smt_pair_cmp`, remove
adjacent duplicates.  The libc `qsort` is external to the repository; it
is modelled by insertion sort, which produces the same array because after
the order assignment all `order` fields are distinct, so `_smt_pair_cmp`
is a strict total order on the elements and the sorted permutation is
unique (stability is irrelevant). -/
def smt_state_normalize (ps : List smt_pair) : List smt_pair :=
  _smt_dedup (List.insertionSort _smt_le (_smt_assign_orders ps))

/-! ## Merge and the proof interpreter -/

/-- `_smt_merge`.  `hash` is the external BLAKE2b-256. -/
def _smt_merge (hash : List Nat → List Nat) (lhs rhs : List Nat) : List Nat :=
  if _smt_zero_value lhs then rhs
  else if _smt_zero_value rhs then lhs
  else hash (lhs ++ rhs)

/-- The leaf digest computed by the `L` opcode: zero for a zero value,
otherwise `BLAKE2b-256(key ‖ value)`. -/
def _smt_leaf_digest (hash : List Nat → List Nat) (p : smt_pair) : List Nat :=
  if _smt_zero_value p.value then List.replicate 32 0
  else hash (p.key ++ p.value)

/-- A stack frame: `(stack_keys[i], stack_values[i])`. -/
structure smt_frame where
  key : List Nat
  value : List Nat
deriving DecidableEq, Repr

/-- The body of the `P` (0x50) opcode on the top frame, after the operands
have been read: merge with the sibling on the side selected by bit
`height` of the key, then rewrite the key to the parent path. -/
def _smt_p_step (hash : List Nat → List Nat) (height : Nat) (sib : List Nat)
    (f : smt_frame) : smt_frame :=
  if _smt_get_bit f.key height then
    ⟨_smt_parent_path f.key height, _smt_merge hash sib f.value⟩
  else
    ⟨_smt_parent_path f.key height, _smt_merge hash f.value sib⟩

/-- The body of the `H` (0x48) opcode on the two top frames (`fa` the
lower frame `stack[top-2]`, `fb` the upper frame `stack[top-1]`), after
the height operand has been read. -/
def _smt_h_step (hash : List Nat → List Nat) (height : Nat) (fa fb : smt_frame) :
    Except Nat smt_frame :=
  let a_set := _smt_get_bit fa.key height
  let b_set := _smt_get_bit fb.key height
  let key_a := _smt_copy_bits fa.key height
  let key_b := _smt_copy_bits fb.key height
  let sibling_key_a := if a_set then key_a else _smt_set_bit key_a height
  if _smt_mem_eq32 sibling_key_a key_b = false ∨ a_set = b_set then
    .error ERROR_INVALID_SIBLING
  else if a_set then
    .ok ⟨key_a, _smt_merge hash fb.value fa.value⟩
  else
    .ok ⟨key_a, _smt_merge hash fa.value fb.value⟩

/-- The interpreter loop of `smt_calculate_root`.  The leaf cursor
`leave_index` is modelled by the list `leaves` of not-yet-consumed pairs
(`leave_index == pairs->len` iff `leaves = []`); the evaluation stack has
its top at the head.  The structural `fuel` only bounds the recursion and
is never exhausted when `fuel ≥ proof.length`, since every opcode consumes
at least one proof byte. -/
def smt_run (hash : List Nat → List Nat) :
    Nat → List Nat → List smt_pair → List smt_frame → Except Nat (List Nat)
  | _, [], leaves, stack =>
    if leaves ≠ [] then .error ERROR_INVALID_PROOF
    else
      match stack with
      | [f] => .ok f.value
      | _ => .error ERROR_INVALID_STACK
  | 0, _ :: _, _, _ => .error ERROR_INVALID_PROOF
  | fuel + 1, b :: rest, leaves, stack =>
    if b = 0x4C then
      if stack.length ≥ _SMT_STACK_SIZE then .error ERROR_INVALID_STACK
      else
        match leaves with
        | [] => .error ERROR_INVALID_PROOF
        | p :: lrest =>
          smt_run hash fuel rest lrest (⟨p.key, _smt_leaf_digest hash p⟩ :: stack)
    else if b = 0x50 then
      match stack with
      | [] => .error ERROR_INVALID_STACK
      | f :: srest =>
        match rest with
        | [] => .error ERROR_INVALID_PROOF
        | height :: rest2 =>
          if rest2.length < 32 then .error ERROR_INVALID_PROOF
          else
            smt_run hash fuel (rest2.drop 32) leaves
              (_smt_p_step hash height (rest2.take 32) f :: srest)
    else if b = 0x48 then
      match stack with
      | fb :: fa :: srest =>
        match rest with
        | [] => .error ERROR_INVALID_PROOF
        | height :: hrest =>
          match _smt_h_step hash height fa fb with
          | .error e => .error e
          | .ok f => smt_run hash fuel hrest leaves (f :: srest)
      | _ => .error ERROR_INVALID_STACK
    else .error ERROR_INVALID_PROOF

/-- `smt_calculate_root`. -/
def smt_calculate_root (hash : List Nat → List Nat) (state : smt_state)
    (proof : List Nat) : Except Nat (List Nat) :=
  smt_run hash proof.length proof state.pairs []

/-- `smt_verify`: returns 0 on success, the error code otherwise. -/
def smt_verify (hash : List Nat → List Nat) (root : List Nat)
    (state : smt_state) (proof : List Nat) : Nat :=
  match smt_calculate_root hash state proof with
  | .error e => e
  | .ok buffer => if _smt_mem_eq32 buffer root then 0 else ERROR_INVALID_PROOF

/-! ## Helper lemmas: bytes and bits -/

theorem getD_set_ite (l : List Nat) (i j a : Nat) :
    (l.set i a).getD j 0 = if i = j ∧ i < l.length then a else l.getD j 0 := by
  simp only [List.getD_eq_getElem?_getD, List.getElem?_set]
  by_cases hij : i = j
  · subst hij
    by_cases hlt : i < l.length
    · simp [hlt]
    · simp [hlt, List.getElem?_eq_none (Nat.le_of_not_lt hlt)]
  · simp [hij]

theorem getD_out_of_range (l : List Nat) (i : Nat) (h : l.length ≤ i) :
    l.getD i 0 = 0 := by
  simp [List.getD_eq_getElem?_getD, List.getElem?_eq_none h]

theorem get_bit_testBit (data : List Nat) (offset : Nat) :
    _smt_get_bit data offset = (data.getD (offset / 8) 0).testBit (offset % 8) := by
  unfold _smt_get_bit Nat.testBit
  rw [Nat.and_comm]

theorem div_mod_8_inj {i j : Nat} (hd : i / 8 = j / 8) (hm : i % 8 = j % 8) :
    i = j := by
  omega

theorem get_bit_clear_bit (d : List Nat) (j i : Nat) :
    _smt_get_bit (_smt_clear_bit d j) i = if i = j then false else _smt_get_bit d i := by
  have h255 : (255 : Nat) = 2 ^ 8 - 1 := by norm_num
  unfold _smt_clear_bit
  rw [get_bit_testBit, get_bit_testBit, getD_set_ite]
  by_cases hset : j / 8 = i / 8 ∧ j / 8 < d.length
  · rw [if_pos hset]
    by_cases hij : i = j
    · subst hij
      rw [if_pos rfl]
      have hlt : i % 8 < 8 := Nat.mod_lt _ (by norm_num)
      rw [Nat.one_shiftLeft, h255, Nat.testBit_and, Nat.testBit_xor,
        Nat.testBit_two_pow_sub_one, Nat.testBit_two_pow]
      simp [hlt]
    · rw [if_neg hij]
      have hm : j % 8 ≠ i % 8 := by
        intro hc; exact hij (div_mod_8_inj hset.1.symm hc.symm)
      have hi8 : i % 8 < 8 := Nat.mod_lt _ (by norm_num)
      rw [Nat.one_shiftLeft, h255, Nat.testBit_and, Nat.testBit_xor,
        Nat.testBit_two_pow_sub_one, Nat.testBit_two_pow, hset.1]
      simp [hi8, hm]
  · rw [if_neg hset]
    by_cases hij : i = j
    · subst hij
      rw [if_pos rfl]
      have : d.length ≤ i / 8 := by
        rcases Nat.lt_or_ge (i / 8) d.length with h | h
        · exact absurd ⟨rfl, h⟩ hset
        · exact h
      rw [getD_out_of_range _ _ this]
      simp
    · rw [if_neg hij]

theorem getD_zero_head_bytes : ∀ (n : Nat) (l : List Nat) (i : Nat),
    (_smt_zero_head_bytes n l).getD i 0 = if i < n ∧ i < l.length then 0 else l.getD i 0
  | _, [], i => by
    simp [_smt_zero_head_bytes]
  | 0, l, i => by
    cases l <;> simp [_smt_zero_head_bytes]
  | n + 1, b :: rest, 0 => by
    simp [_smt_zero_head_bytes]
  | n + 1, b :: rest, i + 1 => by
    have ih := getD_zero_head_bytes n rest i
    simp only [_smt_zero_head_bytes, List.getD_cons_succ, ih, List.length_cons]
    by_cases h : i < n ∧ i < rest.length
    · rw [if_pos h, if_pos (by omega)]
    · rw [if_neg h, if_neg (by omega)]

theorem get_bit_zero_head_bytes (n : Nat) (l : List Nat) (i : Nat) :
    _smt_get_bit (_smt_zero_head_bytes n l) i =
      if i / 8 < n then false else _smt_get_bit l i := by
  rw [get_bit_testBit, get_bit_testBit, getD_zero_head_bytes]
  by_cases h : i / 8 < n
  · by_cases h2 : i / 8 < l.length
    · simp [h, h2]
    · rw [if_neg (by omega), if_pos h, getD_out_of_range _ _ (by omega)]
      simp
  · rw [if_neg (by omega), if_neg h]

theorem get_bit_foldl_clear (js : List Nat) (z : List Nat) (i : Nat) :
    _smt_get_bit (js.foldl _smt_clear_bit z) i =
      if i ∈ js then false else _smt_get_bit z i := by
  induction js generalizing z with
  | nil => simp
  | cons j js ih =>
    rw [List.foldl_cons, ih, get_bit_clear_bit]
    by_cases hj : i ∈ js
    · simp [hj]
    · by_cases hij : i = j
      · simp [hij, hj]
      · simp [hij, hj]

theorem mem_range'_iff (s n m : Nat) : m ∈ List.range' s n ↔ s ≤ m ∧ m < s + n := by
  simp only [List.mem_range']
  constructor
  · rintro ⟨i, hi, rfl⟩; omega
  · rintro ⟨h1, h2⟩; exact ⟨m - s, by omega, by omega⟩

theorem get_bit_copy_bits (s : List Nat) (fk i : Nat) :
    _smt_get_bit (_smt_copy_bits s fk) i =
      if i < fk then false else _smt_get_bit s i := by
  unfold _smt_copy_bits
  rw [get_bit_foldl_clear, get_bit_zero_head_bytes]
  have h8 : fk / 8 * 8 ≤ fk := Nat.div_mul_le_self fk 8
  simp only [mem_range'_iff]
  by_cases hm : fk / 8 * 8 ≤ i ∧ i < fk / 8 * 8 + (fk - fk / 8 * 8)
  · rw [if_pos hm, if_pos (by omega)]
  · rw [if_neg hm]
    by_cases hlo : i < fk / 8 * 8
    · have : i / 8 < fk / 8 := by
        rw [Nat.div_lt_iff_lt_mul (by norm_num : (0:Nat) < 8)]
        omega
      rw [if_pos this, if_pos (by omega)]
    · have : ¬ i / 8 < fk / 8 := by
        intro hc
        rw [Nat.div_lt_iff_lt_mul (by norm_num : (0:Nat) < 8)] at hc
        omega
      rw [if_neg this, if_neg (by omega)]

theorem get_bit_replicate_zero (i : Nat) :
    _smt_get_bit (List.replicate 32 0) i = false := by
  rw [get_bit_testBit]
  have : (List.replicate 32 (0 : Nat)).getD (i / 8) 0 = 0 := by
    rw [List.getD_eq_getElem?_getD, List.getElem?_replicate]
    by_cases h : i / 8 < 32
    · rw [if_pos h]; rfl
    · rw [if_neg h]; rfl
  rw [this]
  simp

theorem get_bit_parent_path_false (k : List Nat) (h : Nat)
    (hk : ∀ i, _smt_get_bit k i = false) (i : Nat) :
    _smt_get_bit (_smt_parent_path k h) i = false := by
  unfold _smt_parent_path
  by_cases h255 : h = 255
  · rw [if_pos h255]; exact get_bit_replicate_zero i
  · rw [if_neg h255, get_bit_copy_bits]
    by_cases hi : i < h + 1
    · rw [if_pos hi]
    · rw [if_neg hi]; exact hk i

/-! ## Helper lemmas: zero values, 32-byte comparison, merge -/

theorem mem_eq32_iff (a b : List Nat) :
    _smt_mem_eq32 a b = true ↔ ∀ i < 32, a.getD i 0 = b.getD i 0 := by
  simp [_smt_mem_eq32, List.all_eq_true, List.mem_range]

theorem zero_value_iff (v : List Nat) :
    _smt_zero_value v = true ↔ ∀ i < 32, v.getD i 0 = 0 := by
  simp [_smt_zero_value, List.all_eq_true, List.mem_range]

theorem mem_eq32_refl (a : List Nat) : _smt_mem_eq32 a a = true := by
  rw [mem_eq32_iff]; intro i _; rfl

theorem mem_eq32_symm {a b : List Nat} (h : _smt_mem_eq32 a b = true) :
    _smt_mem_eq32 b a = true := by
  rw [mem_eq32_iff] at h ⊢
  intro i hi; exact (h i hi).symm

theorem getD_eq_getElem (l : List Nat) (i : Nat) (h : i < l.length) :
    l.getD i 0 = l[i] := by
  rw [List.getD_eq_getElem?_getD, List.getElem?_eq_getElem h]; rfl


theorem zero_value_eq_replicate {v : List Nat} (h : _smt_zero_value v = true)
    (hl : v.length = 32) : v = List.replicate 32 0 := by
  apply List.ext_getElem (by simp [hl])
  intro i h1 h2
  have hv := (zero_value_iff v).mp h i (by omega)
  rw [getD_eq_getElem v i h1] at hv
  rw [hv, List.getElem_replicate]

theorem zero_value_replicate : _smt_zero_value (List.replicate 32 0) = true := by
  decide

theorem merge_zero_right (hash : List Nat → List Nat) (d : List Nat)
    (hd : d = List.replicate 32 0 ∨ _smt_zero_value d = false) :
    _smt_merge hash d (List.replicate 32 0) = d := by
  unfold _smt_merge
  rcases hd with rfl | hd
  · rw [if_pos zero_value_replicate]
  · rw [if_neg (by simp [hd]), if_pos zero_value_replicate]

theorem get_bit_of_mem_eq32 {a b : List Nat} (off : Nat) (hoff : off < 256)
    (h : _smt_mem_eq32 a b = true) : _smt_get_bit a off = _smt_get_bit b off := by
  rw [get_bit_testBit, get_bit_testBit, (mem_eq32_iff a b).mp h (off / 8) (by omega)]

/-! ## Helper lemmas: the H opcode body and error codes -/

theorem h_step_cases (hash : List Nat → List Nat) (height : Nat) (fa fb : smt_frame) :
    _smt_h_step hash height fa fb = .error ERROR_INVALID_SIBLING ∨
      ∃ f, _smt_h_step hash height fa fb = .ok f := by
  simp only [_smt_h_step]
  repeat first
    | exact Or.inl rfl
    | exact Or.inr ⟨_, rfl⟩
    | split

theorem h_step_error {hash : List Nat → List Nat} {height : Nat}
    {fa fb : smt_frame} {e : Nat}
    (h : _smt_h_step hash height fa fb = .error e) : e = ERROR_INVALID_SIBLING := by
  rcases h_step_cases hash height fa fb with hc | ⟨f, hc⟩
  · have := h.symm.trans hc
    simpa using this
  · exact absurd (h.symm.trans hc) (by simp)

theorem smt_run_error_codes (hash : List Nat → List Nat) :
    ∀ (fuel : Nat) (proof : List Nat) (leaves : List smt_pair)
      (stack : List smt_frame) (e : Nat),
      smt_run hash fuel proof leaves stack = .error e →
      e = ERROR_INVALID_STACK ∨ e = ERROR_INVALID_SIBLING ∨ e = ERROR_INVALID_PROOF := by
  intro fuel
  induction fuel with
  | zero =>
    intro proof leaves stack e h
    cases proof with
    | nil =>
      simp only [smt_run] at h
      split at h
      · simp only [Except.error.injEq] at h; subst h; decide
      · split at h
        · simp at h
        · simp only [Except.error.injEq] at h; subst h; decide
    | cons b rest =>
      simp only [smt_run] at h
      simp only [Except.error.injEq] at h; subst h; decide
  | succ fuel ih =>
    intro proof leaves stack e h
    cases proof with
    | nil =>
      simp only [smt_run] at h
      split at h
      · simp only [Except.error.injEq] at h; subst h; decide
      · split at h
        · simp at h
        · simp only [Except.error.injEq] at h; subst h; decide
    | cons b rest =>
      simp only [smt_run] at h
      split at h
      · -- L opcode
        split at h
        · simp only [Except.error.injEq] at h; subst h; decide
        · split at h
          · simp only [Except.error.injEq] at h; subst h; decide
          · exact ih _ _ _ _ h
      · split at h
        · -- P opcode
          split at h
          · simp only [Except.error.injEq] at h; subst h; decide
          · split at h
            · simp only [Except.error.injEq] at h; subst h; decide
            · split at h
              · simp only [Except.error.injEq] at h; subst h; decide
              · exact ih _ _ _ _ h
        · split at h
          · -- H opcode
            split at h
            · split at h
              · simp only [Except.error.injEq] at h; subst h; decide
              · split at h
                · rename_i e2 heq
                  simp only [Except.error.injEq] at h
                  subst h
                  exact Or.inr (Or.inl (h_step_error heq))
                · exact ih _ _ _ _ h
            · simp only [Except.error.injEq] at h; subst h; decide
          · simp only [Except.error.injEq] at h; subst h; decide

/-! ## Concrete scenario inputs (spec §8)

`testHash` is a stand-in for the external BLAKE2b-256 used to instantiate
theorems whose statements quantify over the hash function. -/

def testHash : List Nat → List Nat := fun _ => List.replicate 32 1

/-- One `P` opcode block with an all-zero sibling. -/
def _smt_p_block (h : Nat) : List Nat := 0x50 :: h :: List.replicate 32 0

/-- S2: the all-zero key. -/
def s2_key : List Nat := List.replicate 32 0

/-- S2: the non-zero value `0x00…01`. -/
def s2_value : List Nat := List.replicate 31 0 ++ [1]

/-- S2: state with the single pair `(0^32, 0^31·01)`. -/
def s2_state : smt_state := ⟨[⟨s2_key, s2_value, 0⟩], 1⟩

/-- S2 proof: `L`, then 256 `P` opcodes with heights `0..255`, zero siblings. -/
def s2_proof : List Nat := 0x4C :: (List.range 256).flatMap _smt_p_block

/-- S3/S4: the key differing from `s2_key` only at bit 0. -/
def s4_key_a : List Nat := 1 :: List.replicate 31 0

/-- S4: the two leaves of S3 presented in swapped order (the swap of the two
`L` opcodes manifests as the leaf cursor consuming the pairs in the other
order). -/
def s4_state : smt_state := ⟨[⟨s4_key_a, s2_value, 0⟩, ⟨s2_key, s2_value, 0⟩], 2⟩

/-- The S3 proof: `L`, `L`, `H 0`, then 255 `P` opcodes at heights `1..255`. -/
def s3_proof : List Nat :=
  0x4C :: 0x4C :: 0x48 :: 0 :: (List.range' 1 255).flatMap _smt_p_block

/-- The `H 0` opcode on the swapped leaves fails regardless of the digests:
the constructed expected sibling of `k_a = s4_key_a` does not match `k_b`. -/
theorem s4_h_step_fails (hash : List Nat → List Nat) (va vb : List Nat) :
    _smt_h_step hash 0 ⟨s4_key_a, va⟩ ⟨s2_key, vb⟩ = .error ERROR_INVALID_SIBLING := by
  simp only [_smt_h_step]
  rw [if_pos]
  exact Or.inl (by decide)

theorem s4_run (hash : List Nat → List Nat) (fuel : Nat) (rest : List Nat) :
    smt_run hash (fuel + 3) (0x4C :: 0x4C :: 0x48 :: 0 :: rest) s4_state.pairs [] =
      .error ERROR_INVALID_SIBLING := by
  have h3 : fuel + 3 = (fuel + 2) + 1 := rfl
  rw [h3]
  simp only [smt_run, s4_state]
  norm_num [_SMT_STACK_SIZE]
  rw [s4_h_step_fails]

theorem s4_calculate_root (hash : List Nat → List Nat) :
    smt_calculate_root hash s4_state s3_proof = .error ERROR_INVALID_SIBLING := by
  unfold smt_calculate_root s3_proof
  rw [List.length_cons, List.length_cons, List.length_cons, List.length_cons]
  have : ((List.range' 1 255).flatMap _smt_p_block).length + 1 + 1 + 1 + 1 =
      (((List.range' 1 255).flatMap _smt_p_block).length + 1) + 3 := by omega
  rw [this]
  exact s4_run hash _ _

/-! ## Claims C2, C3, C4, C8, C9, C10 -/

/-- C2: for every execution of the `H` opcode with stack depth ≥ 2 and its
height operand present (the `_smt_h_step` body), letting `a_bit`/`b_bit` be
bit `height` of the lower/upper frame keys and the expected sibling be the
lower key canonicalised by `copy_bits(·, height)` with bit `height` set iff
`a_bit = 0`, the step fails — necessarily with `InvalidSibling` — exactly
when the expected sibling is not byte-equal to the canonicalised upper key
or `a_bit = b_bit`; and running scenario S3 with the two `L` opcodes
swapped (S4) makes `calculate_root` return `InvalidSibling`. -/
theorem claim_C2 (hash : List Nat → List Nat) (height : Nat) (fa fb : smt_frame) :
    (_smt_h_step hash height fa fb = .error ERROR_INVALID_SIBLING ↔
      (_smt_mem_eq32
          (if _smt_get_bit fa.key height then _smt_copy_bits fa.key height
           else _smt_set_bit (_smt_copy_bits fa.key height) height)
          (_smt_copy_bits fb.key height) = false ∨
        _smt_get_bit fa.key height = _smt_get_bit fb.key height)) ∧
    (∀ e, _smt_h_step hash height fa fb = .error e → e = ERROR_INVALID_SIBLING) ∧
    smt_calculate_root hash s4_state s3_proof = .error ERROR_INVALID_SIBLING := by
  refine ⟨?_, fun e he => h_step_error he, s4_calculate_root hash⟩
  by_cases hc : (_smt_mem_eq32
      (if _smt_get_bit fa.key height then _smt_copy_bits fa.key height
       else _smt_set_bit (_smt_copy_bits fa.key height) height)
      (_smt_copy_bits fb.key height) = false ∨
    _smt_get_bit fa.key height = _smt_get_bit fb.key height)
  · simp only [_smt_h_step]
    rw [if_pos hc]
    simp [hc]
  · simp only [_smt_h_step]
    rw [if_neg hc]
    by_cases ha : _smt_get_bit fa.key height = true
    · rw [if_pos ha]
      simp [hc]
    · rw [if_neg ha]
      simp [hc]

/-- C2 witness: the S4 scenario conjunct at the concrete stand-in hash. -/
theorem claim_C2_witness :
    smt_calculate_root testHash s4_state s3_proof = .error ERROR_INVALID_SIBLING :=
  (claim_C2 testHash 0 ⟨[], []⟩ ⟨[], []⟩).2.2

/-- C3: when `calculate_root` reaches the end of the proof (the base case of
the interpreter loop), it returns `InvalidProof` if leaves remain
unconsumed, otherwise `InvalidStack` if the stack depth is not 1, otherwise
the sole remaining digest; in particular for an empty state and the empty
proof it returns `InvalidStack`. -/
theorem claim_C3 (hash : List Nat → List Nat) (fuel : Nat) (leaves : List smt_pair)
    (stack : List smt_frame) (cap : Nat) :
    (smt_run hash fuel [] leaves stack =
      if leaves ≠ [] then .error ERROR_INVALID_PROOF
      else if stack.length ≠ 1 then .error ERROR_INVALID_STACK
      else .ok ((stack.headD ⟨[], []⟩).value)) ∧
    smt_calculate_root hash ⟨[], cap⟩ [] = .error ERROR_INVALID_STACK := by
  constructor
  · cases fuel <;>
    · by_cases hl : leaves ≠ []
      · simp only [smt_run]
        rw [if_pos hl, if_pos hl]
      · simp only [smt_run]
        rw [if_neg hl, if_neg hl]
        match stack with
        | [] => simp
        | [f] => simp
        | f :: g :: rest => simp
  · rfl

/-- C4: the merge rule has the all-zero digest as identity on both sides,
and on two non-zero 32-byte digests it is `BLAKE2b-256(lhs ‖ rhs)`. -/
theorem claim_C4 (hash : List Nat → List Nat) (x y : List Nat)
    (hx : x.length = 32) :
    _smt_merge hash (List.replicate 32 0) x = x ∧
    _smt_merge hash x (List.replicate 32 0) = x ∧
    (_smt_zero_value x = false → _smt_zero_value y = false →
      _smt_merge hash x y = hash (x ++ y)) := by
  refine ⟨?_, ?_, ?_⟩
  · unfold _smt_merge
    rw [if_pos zero_value_replicate]
  · cases hz : _smt_zero_value x with
    | true =>
      rw [zero_value_eq_replicate hz hx]
      unfold _smt_merge
      rw [if_pos zero_value_replicate]
    | false => exact merge_zero_right hash x (Or.inr hz)
  · intro h1 h2
    unfold _smt_merge
    rw [if_neg (by simp [h1]), if_neg (by simp [h2])]

/-- C4 witness: concrete non-zero digests. -/
theorem claim_C4_witness :
    _smt_merge testHash (List.replicate 32 1) (List.replicate 32 2) =
      testHash (List.replicate 32 1 ++ List.replicate 32 2) :=
  (claim_C4 testHash (List.replicate 32 1) (List.replicate 32 2)
    (by decide)).2.2 (by decide) (by decide)

/-- C8 (amended): a `P` opcode reached with a non-empty stack but fewer than
33 remaining operand bytes, or an `H` opcode reached with stack depth ≥ 2
but no remaining operand byte, makes the interpreter return `InvalidProof`;
the claim's universal form fails because the stack-depth checks precede the
truncation checks (see the counterexample). -/
theorem claim_C8_amended (hash : List Nat → List Nat) (fuel : Nat)
    (rest : List Nat) (leaves : List smt_pair) (stack : List smt_frame) :
    (stack ≠ [] → rest.length < 33 →
      smt_run hash (fuel + 1) (0x50 :: rest) leaves stack = .error ERROR_INVALID_PROOF) ∧
    (2 ≤ stack.length →
      smt_run hash (fuel + 1) [0x48] leaves stack = .error ERROR_INVALID_PROOF) := by
  constructor
  · intro hs hr
    match stack, hs with
    | f :: srest, _ =>
      match rest, hr with
      | [], _ => simp [smt_run]
      | height :: rest2, hr =>
        have h32 : rest2.length < 32 := by
          simp only [List.length_cons] at hr; omega
        simp [smt_run, h32]
  · intro h2
    match stack, h2 with
    | fb :: fa :: srest, _ => simp [smt_run]

/-- C8 counterexample: the proof `[0x50]` ends mid-operand, yet with an
empty stack `calculate_root` returns `InvalidStack`, not `InvalidProof`. -/
theorem claim_C8_counterexample :
    smt_calculate_root testHash ⟨[], 0⟩ [0x50] = .error ERROR_INVALID_STACK ∧
    ERROR_INVALID_STACK ≠ ERROR_INVALID_PROOF := by
  exact ⟨rfl, by decide⟩

/-- C8 witness (for the amended claim): a one-frame stack and a truncated
`P` opcode. -/
theorem claim_C8_witness :
    smt_run testHash 1 [0x50] [] [⟨[], []⟩] = .error ERROR_INVALID_PROOF :=
  (claim_C8_amended testHash 0 [] [] [⟨[], []⟩]).1 (by simp) (by simp)

/-- C9: `verify` succeeds exactly when `calculate_root` succeeds with a root
byte-equal to the expected one; errors of `calculate_root` are propagated
unchanged, and a successful computation whose root differs from the
expected root yields `InvalidProof`. -/
theorem claim_C9 (hash : List Nat → List Nat) (root : List Nat)
    (st : smt_state) (proof : List Nat) :
    (smt_verify hash root st proof = 0 ↔
      ∃ r, smt_calculate_root hash st proof = .ok r ∧ _smt_mem_eq32 r root = true) ∧
    (∀ e, smt_calculate_root hash st proof = .error e →
      smt_verify hash root st proof = e) ∧
    (∀ r, smt_calculate_root hash st proof = .ok r → _smt_mem_eq32 r root = false →
      smt_verify hash root st proof = ERROR_INVALID_PROOF) := by
  cases hcalc : smt_calculate_root hash st proof with
  | error e =>
    have hcode := smt_run_error_codes hash _ _ _ _ _ hcalc
    refine ⟨?_, ?_, ?_⟩
    · constructor
      · intro h0
        exfalso
        simp only [smt_verify, hcalc] at h0
        simp only [ERROR_INVALID_STACK, ERROR_INVALID_SIBLING,
          ERROR_INVALID_PROOF] at hcode
        omega
      · rintro ⟨r, hr, _⟩
        simp at hr
    · intro e2 he
      injection he with he
      subst he
      simp [smt_verify, hcalc]
    · intro r hr
      simp at hr
  | ok r =>
    refine ⟨?_, ?_, ?_⟩
    · constructor
      · intro h0
        refine ⟨r, rfl, ?_⟩
        simp only [smt_verify, hcalc] at h0
        cases hm : _smt_mem_eq32 r root with
        | true => rfl
        | false =>
          rw [if_neg (by simp [hm])] at h0
          exact absurd h0 (by decide)
      · rintro ⟨r2, hr2, hm⟩
        injection hr2 with hr2
        subst hr2
        simp [smt_verify, hcalc, hm]
    · intro e2 he
      simp at he
    · intro r2 hr2 hm
      injection hr2 with hr2
      subst hr2
      simp [smt_verify, hcalc, hm]

/-- C9 witness: error propagation at a concrete input (`InvalidStack` from
the empty state and empty proof). -/
theorem claim_C9_witness :
    smt_verify testHash (List.replicate 32 1) ⟨[], 0⟩ [] = ERROR_INVALID_STACK :=
  (claim_C9 testHash (List.replicate 32 1) ⟨[], 0⟩ []).2.1 ERROR_INVALID_STACK rfl

/-- C10: whenever the `H` opcode body succeeds, bit `height` of the lower
frame key is 0 and of the upper frame key is 1, the merged digest is
`merge(lower_value, upper_value)` (the `a_bit = 1` branch is never taken),
and the pushed key has all bits `0..height` zero. -/
theorem claim_C10 (hash : List Nat → List Nat) (height : Nat) (fa fb f : smt_frame)
    (h256 : height < 256) (h : _smt_h_step hash height fa fb = .ok f) :
    _smt_get_bit fa.key height = false ∧ _smt_get_bit fb.key height = true ∧
    f.value = _smt_merge hash fa.value fb.value ∧
    ∀ i ≤ height, _smt_get_bit f.key i = false := by
  simp only [_smt_h_step] at h
  by_cases hc : (_smt_mem_eq32
      (if _smt_get_bit fa.key height then _smt_copy_bits fa.key height
       else _smt_set_bit (_smt_copy_bits fa.key height) height)
      (_smt_copy_bits fb.key height) = false ∨
    _smt_get_bit fa.key height = _smt_get_bit fb.key height)
  · rw [if_pos hc] at h
    cases h
  · rw [if_neg hc] at h
    rcases not_or.mp hc with ⟨hA, hB⟩
    have hA' : _smt_mem_eq32
        (if _smt_get_bit fa.key height then _smt_copy_bits fa.key height
         else _smt_set_bit (_smt_copy_bits fa.key height) height)
        (_smt_copy_bits fb.key height) = true := by
      rwa [Bool.not_eq_false] at hA
    by_cases ha : _smt_get_bit fa.key height = true
    · exfalso
      rw [if_pos ha] at hA'
      have hbits := get_bit_of_mem_eq32 height h256 hA'
      rw [get_bit_copy_bits, get_bit_copy_bits,
        if_neg (Nat.lt_irrefl height), if_neg (Nat.lt_irrefl height)] at hbits
      exact hB hbits
    · rw [if_neg ha] at h
      injection h with h
      subst h
      have hafalse : _smt_get_bit fa.key height = false := by
        cases hx : _smt_get_bit fa.key height with
        | true => exact absurd hx ha
        | false => rfl
      refine ⟨hafalse, ?_, rfl, ?_⟩
      · cases hb : _smt_get_bit fb.key height with
        | true => rfl
        | false =>
          rw [hafalse, hb] at hB
          exact absurd rfl hB
      · intro i hi
        show _smt_get_bit (_smt_copy_bits fa.key height) i = false
        rw [get_bit_copy_bits]
        by_cases hlt : i < height
        · rw [if_pos hlt]
        · have hieq : i = height := by omega
          rw [if_neg hlt, hieq, hafalse]

/-- C10 witness: a concrete successful `H` step at height 0. -/
theorem claim_C10_witness :
    _smt_get_bit (List.replicate 32 0) 0 = false :=
  (claim_C10 testHash 0 ⟨List.replicate 32 0, List.replicate 32 1⟩
    ⟨1 :: List.replicate 31 0, List.replicate 32 2⟩
    ⟨_smt_copy_bits (List.replicate 32 0) 0,
      _smt_merge testHash (List.replicate 32 1) (List.replicate 32 2)⟩
    (by decide) rfl).1

/-! ## Claim C1: scenario S2 (single leaf, 256 absorbing `P` opcodes) -/

/-- Running a sequence of `P` opcodes with all-zero siblings on a single
frame whose key has every bit clear leaves the digest unchanged: the merge
identity absorbs each zero sibling, and the parent-path rewrite keeps the
key all-zero. -/
theorem p_blocks_run (hash : List Nat → List Nat) :
    ∀ (hs : List Nat) (fuel : Nat) (f : smt_frame),
      (∀ i, _smt_get_bit f.key i = false) →
      (f.value = List.replicate 32 0 ∨ _smt_zero_value f.value = false) →
      (hs.flatMap _smt_p_block).length ≤ fuel →
      smt_run hash fuel (hs.flatMap _smt_p_block) [] [f] = .ok f.value := by
  intro hs
  induction hs with
  | nil =>
    intro fuel f hk hv hf
    cases fuel <;> simp [smt_run]
  | cons h hs ih =>
    intro fuel f hk hv hf
    rw [List.flatMap_cons] at hf ⊢
    have hlen : (_smt_p_block h).length = 34 := by
      simp [_smt_p_block]
    rw [List.length_append, hlen] at hf
    obtain ⟨fuel, rfl⟩ : ∃ n, fuel = n + 1 := ⟨fuel - 1, by omega⟩
    show smt_run hash (fuel + 1)
      ((0x50 :: h :: List.replicate 32 0) ++ hs.flatMap _smt_p_block) [] [f] =
      .ok f.value
    rw [List.cons_append, List.cons_append]
    simp only [smt_run]
    rw [if_pos trivial]
    have h32 : ¬ (List.replicate 32 0 ++ hs.flatMap _smt_p_block).length < 32 := by
      rw [List.length_append, List.length_replicate]
      omega
    rw [if_neg h32]
    rw [List.take_left' (List.length_replicate 32 0),
      List.drop_left' (List.length_replicate 32 0)]
    have hstep : _smt_p_step hash h (List.replicate 32 0) f =
        ⟨_smt_parent_path f.key h, f.value⟩ := by
      unfold _smt_p_step
      rw [if_neg (by simp [hk h]), merge_zero_right hash f.value hv]
    rw [hstep]
    have := ih fuel ⟨_smt_parent_path f.key h, f.value⟩
      (fun i => get_bit_parent_path_false f.key h hk i) hv (by omega)
    exact this

/-- A single `L` opcode step on a non-full stack. -/
theorem smt_run_L (hash : List Nat → List Nat) (fuel : Nat) (rest : List Nat)
    (p : smt_pair) (lrest : List smt_pair) (stack : List smt_frame)
    (hstack : stack.length < 32) :
    smt_run hash (fuel + 1) (0x4C :: rest) (p :: lrest) stack =
      smt_run hash fuel rest lrest (⟨p.key, _smt_leaf_digest hash p⟩ :: stack) := by
  simp only [smt_run, _SMT_STACK_SIZE]
  rw [if_pos trivial, if_neg (by omega)]

/-- C1: the S2 scenario computes the root `BLAKE2b-256(k ‖ v)`.  The only
assumption on the external hash is that its output is 32 bytes wide at the
single point where it is consulted. -/
theorem claim_C1 (hash : List Nat → List Nat)
    (hlen : (hash (s2_key ++ s2_value)).length = 32) :
    smt_calculate_root hash s2_state s2_proof = .ok (hash (s2_key ++ s2_value)) := by
  unfold smt_calculate_root s2_proof s2_state
  rw [List.length_cons]
  rw [smt_run_L hash _ _ _ _ _ (by simp)]
  have hdig : _smt_leaf_digest hash ⟨s2_key, s2_value, 0⟩ = hash (s2_key ++ s2_value) := by
    unfold _smt_leaf_digest
    rw [if_neg (by decide)]
  rw [hdig]
  apply p_blocks_run
  · intro i
    show _smt_get_bit s2_key i = false
    exact get_bit_replicate_zero i
  · cases hz : _smt_zero_value (hash (s2_key ++ s2_value)) with
    | true => exact Or.inl (zero_value_eq_replicate hz hlen)
    | false => exact Or.inr rfl
  · exact Nat.le_refl _

/-- C1 witness: the stand-in hash has 32-byte output, so the scenario
computes its digest of `k ‖ v`. -/
theorem claim_C1_witness :
    smt_calculate_root testHash s2_state s2_proof = .ok (testHash (s2_key ++ s2_value)) :=
  claim_C1 testHash (by decide)

/-! ## Claim C7: insert/fetch coherence -/

/-- While the buffer is not full every insert appends, so a sequence of at
most `capacity` inserts materialises exactly the list of operations. -/
theorem insert_all_appends :
    ∀ (ops : List (List Nat × List Nat)) (ps : List smt_pair) (cap : Nat),
      ps.length + ops.length ≤ cap →
      smt_insert_all ⟨ps, cap⟩ ops =
        .ok ⟨ps ++ ops.map (fun q => ⟨q.1, q.2, 0⟩), cap⟩ := by
  intro ops
  induction ops with
  | nil =>
    intro ps cap hlen
    simp [smt_insert_all]
  | cons op rest ih =>
    intro ps cap hlen
    obtain ⟨k, v⟩ := op
    have hins : smt_state_insert ⟨ps, cap⟩ k v = .ok ⟨ps ++ [⟨k, v, 0⟩], cap⟩ := by
      unfold smt_state_insert
      rw [if_pos (show ps.length < cap by simp at hlen; omega)]
    rw [smt_insert_all, hins]
    show smt_insert_all ⟨ps ++ [⟨k, v, 0⟩], cap⟩ rest = _
    rw [ih _ cap (by simp at hlen ⊢; omega)]
    simp

/-- The downward scan is the first match over the reversed list. -/
theorem find_rev_eq_reverse_find : ∀ (l : List smt_pair) (key : List Nat),
    _smt_find_rev l key = l.reverse.find? (fun p => _smt_mem_eq32 key p.key)
  | [], _ => rfl
  | p :: rest, key => by
    rw [_smt_find_rev, find_rev_eq_reverse_find rest key]
    rw [List.reverse_cons, List.find?_append]
    cases (rest.reverse.find? fun p => _smt_mem_eq32 key p.key) with
    | none =>
      simp only [Option.none_or]
      by_cases h : _smt_mem_eq32 key p.key
      · simp [h]
      · simp [h]
    | some q => rfl

/-- C7: after any sequence of inserts that never fills the buffer, `fetch`
returns the value of the most recent insert with a matching key, and
`NotFound` when no insert used the key. -/
theorem claim_C7 (ops : List (List Nat × List Nat)) (cap : Nat) (k : List Nat)
    (hcap : ops.length ≤ cap) :
    ∃ st, smt_insert_all ⟨[], cap⟩ ops = .ok st ∧
      smt_state_fetch st k =
        (match ops.reverse.find? (fun q => _smt_mem_eq32 k q.1) with
         | some q => .ok q.2
         | none => .error ERROR_NOT_FOUND) := by
  refine ⟨_, insert_all_appends ops [] cap (by simpa), ?_⟩
  show smt_state_fetch ⟨[] ++ ops.map (fun q => ⟨q.1, q.2, 0⟩), cap⟩ k = _
  rw [List.nil_append]
  unfold smt_state_fetch
  rw [find_rev_eq_reverse_find]
  rw [← List.map_reverse, List.find?_map]
  have hfun : ((fun p => _smt_mem_eq32 k p.key) ∘
      (fun q : List Nat × List Nat => (⟨q.1, q.2, 0⟩ : smt_pair))) =
      (fun q : List Nat × List Nat => _smt_mem_eq32 k q.1) := rfl
  rw [hfun]
  cases ops.reverse.find? (fun q => _smt_mem_eq32 k q.1) with
  | none => rfl
  | some q => rfl

/-- C7 witness: two inserts on the same key, the second wins; a missing key
reports `NotFound`. -/
theorem claim_C7_witness :
    ∃ st, smt_insert_all ⟨[], 4⟩
        [([1], [5]), ([1], [6])] = .ok st ∧
      smt_state_fetch st [1] =
        (match [([1], [5]), ([1], [6])].reverse.find?
            (fun q => _smt_mem_eq32 [1] q.1) with
         | some q => .ok q.2
         | none => .error ERROR_NOT_FOUND) :=
  claim_C7 [([1], [5]), ([1], [6])] 4 [1] (by decide)

/-! ## Helper lemmas: the key comparator -/

theorem key_cmp_at_eq_zero : ∀ (is : List Nat) (a b : List Nat),
    _smt_key_cmp_at is a b = 0 ↔ ∀ i ∈ is, a.getD i 0 = b.getD i 0 := by
  intro is
  induction is with
  | nil => intro a b; simp [_smt_key_cmp_at]
  | cons i is ih =>
    intro a b
    rw [_smt_key_cmp_at]
    by_cases hc : ((a.getD i 0 : Int) - (b.getD i 0 : Int)) = 0
    · rw [if_pos hc, ih]
      constructor
      · intro h j hj
        rcases List.mem_cons.mp hj with rfl | hj
        · omega
        · exact h j hj
      · intro h j hj
        exact h j (List.mem_cons_of_mem i hj)
    · rw [if_neg hc]
      constructor
      · intro h; exact absurd h hc
      · intro h
        have := h i (List.mem_cons_self i is)
        omega

theorem key_cmp_at_antisymm : ∀ (is : List Nat) (a b : List Nat),
    _smt_key_cmp_at is b a = - _smt_key_cmp_at is a b := by
  intro is
  induction is with
  | nil => intro a b; simp [_smt_key_cmp_at]
  | cons i is ih =>
    intro a b
    rw [_smt_key_cmp_at, _smt_key_cmp_at]
    by_cases hc : ((a.getD i 0 : Int) - (b.getD i 0 : Int)) = 0
    · rw [if_pos hc, if_pos (by omega), ih]
    · rw [if_neg hc, if_neg (by omega)]
      omega

theorem key_cmp_at_trans : ∀ (is : List Nat) (a b c : List Nat),
    _smt_key_cmp_at is a b ≤ 0 → _smt_key_cmp_at is b c ≤ 0 →
    _smt_key_cmp_at is a c ≤ 0 ∧
      ((_smt_key_cmp_at is a b < 0 ∨ _smt_key_cmp_at is b c < 0) →
        _smt_key_cmp_at is a c < 0) := by
  intro is
  induction is with
  | nil =>
    intro a b c _ _
    simp [_smt_key_cmp_at]
  | cons i is ih =>
    intro a b c hab hbc
    rw [_smt_key_cmp_at] at hab hbc ⊢
    by_cases h1 : ((a.getD i 0 : Int) - (b.getD i 0 : Int)) = 0
    · rw [if_pos h1] at hab
      by_cases h2 : ((b.getD i 0 : Int) - (c.getD i 0 : Int)) = 0
      · rw [if_pos h2] at hbc
        rw [if_pos (by omega)]
        rw [_smt_key_cmp_at] ; rw [if_pos h1]   -- re-expose for the disjunction
        have := ih a b c hab hbc
        constructor
        · exact this.1
        · intro hd
          rw [_smt_key_cmp_at, if_pos h2] at hd
          exact this.2 hd
      · rw [if_neg h2] at hbc
        rw [if_neg (by omega)]
        constructor
        · omega
        · intro _; omega
    · rw [if_neg h1] at hab
      by_cases h2 : ((b.getD i 0 : Int) - (c.getD i 0 : Int)) = 0
      · rw [if_neg (by omega)]
        constructor
        · omega
        · intro _; omega
      · rw [if_neg h2] at hbc
        rw [if_neg (by omega)]
        constructor
        · omega
        · intro _; omega

theorem key_cmp_eq_zero_iff (a b : List Nat) :
    _smt_key_cmp a b = 0 ↔ _smt_mem_eq32 a b = true := by
  rw [_smt_key_cmp, key_cmp_at_eq_zero, mem_eq32_iff]
  constructor
  · intro h i hi
    exact h i (by simp [List.mem_reverse, List.mem_range, hi])
  · intro h i hi
    simp only [List.mem_reverse, List.mem_range] at hi
    exact h i hi

theorem key_cmp_antisymm (a b : List Nat) :
    _smt_key_cmp b a = - _smt_key_cmp a b :=
  key_cmp_at_antisymm _ a b

theorem key_cmp_trans_le {a b c : List Nat}
    (hab : _smt_key_cmp a b ≤ 0) (hbc : _smt_key_cmp b c ≤ 0) :
    _smt_key_cmp a c ≤ 0 :=
  (key_cmp_at_trans _ a b c hab hbc).1

theorem key_cmp_trans_lt {a b c : List Nat}
    (hab : _smt_key_cmp a b < 0) (hbc : _smt_key_cmp b c ≤ 0) :
    _smt_key_cmp a c < 0 :=
  (key_cmp_at_trans _ a b c (le_of_lt hab) hbc).2 (Or.inl hab)

theorem key_cmp_trans_lt' {a b c : List Nat}
    (hab : _smt_key_cmp a b ≤ 0) (hbc : _smt_key_cmp b c < 0) :
    _smt_key_cmp a c < 0 :=
  (key_cmp_at_trans _ a b c hab (le_of_lt hbc)).2 (Or.inr hbc)

theorem pair_cmp_self (p : smt_pair) : _smt_pair_cmp p p = 0 := by
  unfold _smt_pair_cmp
  rw [if_pos ((key_cmp_eq_zero_iff _ _).mpr (mem_eq32_refl _))]
  omega

theorem pair_cmp_antisymm (p q : smt_pair) :
    _smt_pair_cmp q p = - _smt_pair_cmp p q := by
  unfold _smt_pair_cmp
  by_cases hk : _smt_key_cmp p.key q.key = 0
  · rw [if_pos hk, if_pos (by rw [key_cmp_antisymm]; omega)]
    omega
  · rw [if_neg hk, if_neg (by rw [key_cmp_antisymm]; omega)]
    exact key_cmp_antisymm _ _

theorem pair_le_key_le {p q : smt_pair} (h : _smt_le p q) :
    _smt_key_cmp p.key q.key ≤ 0 := by
  unfold _smt_le _smt_pair_cmp at h
  by_cases hk : _smt_key_cmp p.key q.key = 0
  · omega
  · rw [if_neg hk] at h; exact h

theorem pair_le_order {p q : smt_pair} (h : _smt_le p q)
    (hk : _smt_key_cmp p.key q.key = 0) : p.order ≤ q.order := by
  unfold _smt_le _smt_pair_cmp at h
  rw [if_pos hk] at h
  omega

theorem mem_eq32_trans {a b c : List Nat} (h1 : _smt_mem_eq32 a b = true)
    (h2 : _smt_mem_eq32 b c = true) : _smt_mem_eq32 a c = true := by
  rw [mem_eq32_iff] at h1 h2 ⊢
  intro i hi
  rw [h1 i hi, h2 i hi]

theorem pair_le_refl (p : smt_pair) : _smt_le p p := by
  have hself := pair_cmp_self p
  unfold _smt_le
  omega

theorem pair_le_trans {p q r : smt_pair}
    (hpq : _smt_le p q) (hqr : _smt_le q r) : _smt_le p r := by
  have hk1 := pair_le_key_le hpq
  have hk2 := pair_le_key_le hqr
  unfold _smt_le _smt_pair_cmp
  by_cases hk : _smt_key_cmp p.key r.key = 0
  · rw [if_pos hk]
    -- the three keys are byte-equal on indices 0..31, so both tie-breaks apply
    by_cases h1 : _smt_key_cmp p.key q.key = 0
    · have h2 : _smt_key_cmp q.key r.key = 0 := by
        by_contra h2
        have hlt : _smt_key_cmp q.key r.key < 0 := by omega
        have := key_cmp_trans_lt' (le_of_eq h1) hlt
        omega
      have := pair_le_order hpq h1
      have := pair_le_order hqr h2
      omega
    · exfalso
      have h1' : _smt_key_cmp p.key q.key < 0 := by omega
      have := key_cmp_trans_lt h1' hk2
      omega
  · rw [if_neg hk]
    exact le_of_lt (by
      by_cases h1 : _smt_key_cmp p.key q.key = 0
      · have h2 : _smt_key_cmp q.key r.key ≠ 0 := by
          intro h2
          have hpr : _smt_key_cmp p.key r.key = 0 := by
            rw [(key_cmp_eq_zero_iff _ _).mpr]
            exact mem_eq32_trans ((key_cmp_eq_zero_iff _ _).mp h1)
              ((key_cmp_eq_zero_iff _ _).mp h2)
          exact hk hpr
        exact key_cmp_trans_lt' hk1 (by omega)
      · exact key_cmp_trans_lt (by omega) hk2)

theorem pair_le_total (p q : smt_pair) : _smt_le p q ∨ _smt_le q p := by
  unfold _smt_le
  rw [pair_cmp_antisymm]
  omega

instance : IsTrans smt_pair _smt_le := ⟨fun _ _ _ => pair_le_trans⟩

instance : IsTotal smt_pair _smt_le := ⟨pair_le_total⟩

/-! ## Helper lemmas: duplicate removal -/

theorem dedup_aux_sublist : ∀ (l : List smt_pair) (p : smt_pair),
    (_smt_dedup_aux p l).Sublist l := by
  intro l
  induction l with
  | nil => intro p; exact List.Sublist.refl []
  | cons q rest ih =>
    intro p
    rw [_smt_dedup_aux]
    by_cases h : _smt_mem_eq32 p.key q.key
    · rw [if_pos h]
      exact (ih p).cons q
    · rw [if_neg h]
      exact (ih q).cons₂ q

theorem dedup_sublist (l : List smt_pair) : (_smt_dedup l).Sublist l := by
  cases l with
  | nil => exact List.Sublist.refl []
  | cons p rest =>
    rw [_smt_dedup]
    exact (dedup_aux_sublist rest p).cons₂ p

theorem pair_lt_of_le_of_ne {p q : smt_pair} (hle : _smt_le p q)
    (hne : _smt_mem_eq32 p.key q.key = false) :
    _smt_key_cmp p.key q.key < 0 := by
  have h1 := pair_le_key_le hle
  have h2 : _smt_key_cmp p.key q.key ≠ 0 := by
    intro hc
    rw [(key_cmp_eq_zero_iff _ _).mp hc] at hne
    cases hne
  omega

/-- No pair surviving the skip loop is key-equal to the current run head. -/
theorem dedup_aux_no_head_key : ∀ (l : List smt_pair) (p : smt_pair),
    List.Pairwise _smt_le (p :: l) →
    ∀ x ∈ _smt_dedup_aux p l, _smt_mem_eq32 p.key x.key = false := by
  intro l
  induction l with
  | nil => intro p _ x hx; cases hx
  | cons r rest ih =>
    intro p hpw x hx
    have hpr : _smt_le p r := (List.pairwise_cons.mp hpw).1 r (List.mem_cons_self r rest)
    have hprest : List.Pairwise _smt_le (p :: rest) := by
      rw [List.pairwise_cons] at hpw ⊢
      exact ⟨fun b hb => hpw.1 b (List.mem_cons_of_mem r hb), hpw.2.sublist (List.sublist_cons_self r rest)⟩
    have hrrest : List.Pairwise _smt_le (r :: rest) := (List.pairwise_cons.mp hpw).2
    rw [_smt_dedup_aux] at hx
    by_cases h : _smt_mem_eq32 p.key r.key
    · rw [if_pos h] at hx
      exact ih p hprest x hx
    · rw [if_neg h] at hx
      rcases List.mem_cons.mp hx with rfl | hx
      · exact Bool.eq_false_iff.mpr h
      · have hrx : _smt_mem_eq32 r.key x.key = false := ih r hrrest x hx
        by_contra hcon
        have hpx : _smt_mem_eq32 p.key x.key = true := by
          cases hpx : _smt_mem_eq32 p.key x.key with
          | true => rfl
          | false => exact absurd hpx hcon
        have hxr : x ∈ rest := (dedup_aux_sublist rest r).mem hx
        have hrlx : _smt_le r x := (List.pairwise_cons.mp hrrest).1 x hxr
        have h1 : _smt_key_cmp p.key r.key < 0 :=
          pair_lt_of_le_of_ne hpr (Bool.eq_false_iff.mpr h)
        have h2 : _smt_key_cmp r.key x.key ≤ 0 := pair_le_key_le hrlx
        have h3 := key_cmp_trans_lt h1 h2
        rw [(key_cmp_eq_zero_iff _ _).mpr hpx] at h3
        exact absurd h3 (by omega)

/-- The skip loop produces strictly key-increasing output from a sorted run. -/
theorem dedup_aux_pairwise_lt : ∀ (l : List smt_pair) (p : smt_pair),
    List.Pairwise _smt_le (p :: l) →
    List.Pairwise (fun x y => _smt_key_cmp x.key y.key < 0) (_smt_dedup_aux p l) := by
  intro l
  induction l with
  | nil => intro p _; rw [_smt_dedup_aux]; exact List.Pairwise.nil
  | cons r rest ih =>
    intro p hpw
    have hprest : List.Pairwise _smt_le (p :: rest) := by
      rw [List.pairwise_cons] at hpw ⊢
      exact ⟨fun b hb => hpw.1 b (List.mem_cons_of_mem r hb), hpw.2.sublist (List.sublist_cons_self r rest)⟩
    have hrrest : List.Pairwise _smt_le (r :: rest) := (List.pairwise_cons.mp hpw).2
    rw [_smt_dedup_aux]
    by_cases h : _smt_mem_eq32 p.key r.key
    · rw [if_pos h]
      exact ih p hprest
    · rw [if_neg h]
      rw [List.pairwise_cons]
      constructor
      · intro y hy
        have hyrest : y ∈ rest := (dedup_aux_sublist rest r).mem hy
        have hry : _smt_le r y := (List.pairwise_cons.mp hrrest).1 y hyrest
        exact pair_lt_of_le_of_ne hry (dedup_aux_no_head_key rest r hrrest y hy)
      · exact ih r hrrest

theorem dedup_pairwise_lt (l : List smt_pair) (h : List.Pairwise _smt_le l) :
    List.Pairwise (fun x y => _smt_key_cmp x.key y.key < 0) (_smt_dedup l) := by
  cases l with
  | nil => exact List.Pairwise.nil
  | cons p rest =>
    rw [_smt_dedup, List.pairwise_cons]
    constructor
    · intro y hy
      have hyrest : y ∈ rest := (dedup_aux_sublist rest p).mem hy
      have hpy : _smt_le p y := (List.pairwise_cons.mp h).1 y hyrest
      exact pair_lt_of_le_of_ne hpy (dedup_aux_no_head_key rest p h y hy)
    · exact dedup_aux_pairwise_lt rest p h

/-- Among the pairs of a sorted run sharing a key, the retained one is the
least in the sort order (hence the one with the least `order`). -/
theorem dedup_aux_min : ∀ (l : List smt_pair) (p : smt_pair),
    List.Pairwise _smt_le (p :: l) →
    ∀ x ∈ _smt_dedup_aux p l, ∀ q ∈ l, _smt_mem_eq32 x.key q.key = true → _smt_le x q := by
  intro l
  induction l with
  | nil => intro p _ x hx; cases hx
  | cons r rest ih =>
    intro p hpw x hx q hq hkeq
    have hprest : List.Pairwise _smt_le (p :: rest) := by
      rw [List.pairwise_cons] at hpw ⊢
      exact ⟨fun b hb => hpw.1 b (List.mem_cons_of_mem r hb), hpw.2.sublist (List.sublist_cons_self r rest)⟩
    have hrrest : List.Pairwise _smt_le (r :: rest) := (List.pairwise_cons.mp hpw).2
    rw [_smt_dedup_aux] at hx
    by_cases h : _smt_mem_eq32 p.key r.key
    · rw [if_pos h] at hx
      rcases List.mem_cons.mp hq with rfl | hq
      · -- q = r: then x would be key-equal to the run head p, impossible
        exfalso
        have hpx : _smt_mem_eq32 p.key x.key = false := dedup_aux_no_head_key rest p hprest x hx
        have : _smt_mem_eq32 p.key x.key = true :=
          mem_eq32_trans h (mem_eq32_symm hkeq)
        rw [hpx] at this
        cases this
      · exact ih p hprest x hx q hq hkeq
    · rw [if_neg h] at hx
      rcases List.mem_cons.mp hx with rfl | hx
      · -- x = r
        rcases List.mem_cons.mp hq with rfl | hq
        · exact pair_le_refl _
        · exact (List.pairwise_cons.mp hrrest).1 q hq
      · rcases List.mem_cons.mp hq with rfl | hq
        · exfalso
          have hrx : _smt_mem_eq32 q.key x.key = false := dedup_aux_no_head_key rest q hrrest x hx
          have hxx : _smt_mem_eq32 q.key x.key = true := mem_eq32_symm hkeq
          rw [hrx] at hxx
          cases hxx
        · exact ih r hrrest x hx q hq hkeq

theorem dedup_min (l : List smt_pair) (h : List.Pairwise _smt_le l) :
    ∀ x ∈ _smt_dedup l, ∀ q ∈ l, _smt_mem_eq32 x.key q.key = true → _smt_le x q := by
  cases l with
  | nil => intro x hx; cases hx
  | cons p rest =>
    intro x hx q hq hkeq
    rw [_smt_dedup] at hx
    rcases List.mem_cons.mp hx with rfl | hx
    · rcases List.mem_cons.mp hq with rfl | hq
      · exact pair_le_refl _
      · exact (List.pairwise_cons.mp h).1 q hq
    · rcases List.mem_cons.mp hq with rfl | hq
      · exfalso
        have hpx : _smt_mem_eq32 q.key x.key = false := dedup_aux_no_head_key rest q h x hx
        have : _smt_mem_eq32 q.key x.key = true := mem_eq32_symm hkeq
        rw [hpx] at this
        cases this
      · exact dedup_aux_min rest p h x hx q hq hkeq

/-! ## Helper lemmas: order assignment and downward search -/

def dflt_pair : smt_pair := ⟨[], [], 0⟩

theorem getD_eq_getElem' {α : Type} (l : List α) (d : α) (i : Nat)
    (h : i < l.length) : l.getD i d = l[i] := by
  rw [List.getD_eq_getElem?_getD, List.getElem?_eq_getElem h]
  rfl

theorem mem_assign_from : ∀ (l : List smt_pair) (n i : Nat) (x : smt_pair),
    x ∈ _smt_assign_from n i l ↔
      ∃ j, j < l.length ∧ x = { l.getD j dflt_pair with order := n - (i + j) } := by
  intro l
  induction l with
  | nil => intro n i x; simp [_smt_assign_from]
  | cons p rest ih =>
    intro n i x
    rw [_smt_assign_from, List.mem_cons, ih]
    constructor
    · rintro (rfl | ⟨j, hj, rfl⟩)
      · exact ⟨0, by simp, by simp⟩
      · refine ⟨j + 1, by simp only [List.length_cons]; omega, ?_⟩
        simp only [List.getD_cons_succ]
        congr 1
        omega
    · rintro ⟨j, hj, rfl⟩
      cases j with
      | zero => exact Or.inl (by simp)
      | succ j =>
        refine Or.inr ⟨j, by simp only [List.length_cons] at hj; omega, ?_⟩
        simp only [List.getD_cons_succ]
        congr 1
        omega

theorem find_rev_none : ∀ (l : List smt_pair) (key : List Nat),
    (∀ q ∈ l, _smt_mem_eq32 key q.key = false) → _smt_find_rev l key = none := by
  intro l
  induction l with
  | nil => intro key _; rfl
  | cons p rest ih =>
    intro key h
    rw [_smt_find_rev, ih key (fun q hq => h q (List.mem_cons_of_mem p hq))]
    rw [if_neg (by simp [h p (List.mem_cons_self p rest)])]

theorem find_rev_of_max : ∀ (l : List smt_pair) (key : List Nat) (j : Nat),
    j < l.length → _smt_mem_eq32 key ((l.getD j dflt_pair).key) = true →
    (∀ j2, j < j2 → j2 < l.length →
      _smt_mem_eq32 key ((l.getD j2 dflt_pair).key) = false) →
    _smt_find_rev l key = some (l.getD j dflt_pair) := by
  intro l
  induction l with
  | nil => intro key j hj _ _; simp at hj
  | cons p rest ih =>
    intro key j hj hkey hmax
    cases j with
    | zero =>
      rw [_smt_find_rev]
      have hnone : _smt_find_rev rest key = none := by
        apply find_rev_none
        intro q hq
        obtain ⟨i2, hi2, rfl⟩ := List.mem_iff_getElem.mp hq
        have hm := hmax (i2 + 1) (by omega) (by simp only [List.length_cons]; omega)
        rw [List.getD_cons_succ, getD_eq_getElem' rest dflt_pair i2 hi2] at hm
        exact hm
      rw [hnone]
      rw [List.getD_cons_zero] at hkey ⊢
      rw [if_pos hkey]
    | succ j =>
      rw [_smt_find_rev]
      have hrec := ih key j (by simp only [List.length_cons] at hj; omega)
        (by rw [List.getD_cons_succ] at hkey; exact hkey)
        (fun j2 hj2 hj2len => by
          have hm := hmax (j2 + 1) (by omega) (by simp only [List.length_cons]; omega)
          rw [List.getD_cons_succ] at hm
          exact hm)
      rw [hrec, List.getD_cons_succ]

/-! ## Normalisation: retained pair is the latest write -/

/-- Every pair surviving `normalize` carries the value of the pair that the
downward scan (`fetch` semantics) finds for its key: the occurrence at the
highest index, i.e. the most recent insert. -/
theorem normalize_latest (l : List smt_pair) (p : smt_pair)
    (hp : p ∈ smt_state_normalize l) :
    ∃ q, _smt_find_rev l p.key = some q ∧ q.value = p.value := by
  have hsorted : List.Pairwise _smt_le
      (List.insertionSort _smt_le (_smt_assign_orders l)) :=
    List.sorted_insertionSort _smt_le _
  rw [smt_state_normalize] at hp
  have hpS : p ∈ List.insertionSort _smt_le (_smt_assign_orders l) :=
    (dedup_sublist _).mem hp
  have hpA : p ∈ _smt_assign_orders l := (List.mem_insertionSort _smt_le).mp hpS
  rw [_smt_assign_orders] at hpA
  obtain ⟨j, hj, hpj⟩ := (mem_assign_from l l.length 0 p).mp hpA
  have hpkey : p.key = (l.getD j dflt_pair).key := by rw [hpj]
  have hpval : p.value = (l.getD j dflt_pair).value := by rw [hpj]
  have hpord : p.order = l.length - (0 + j) := by rw [hpj]
  have hmax : ∀ j2, j < j2 → j2 < l.length →
      _smt_mem_eq32 p.key ((l.getD j2 dflt_pair).key) = false := by
    intro j2 hgt hlen
    by_contra hcon
    have htrue : _smt_mem_eq32 p.key ((l.getD j2 dflt_pair).key) = true := by
      cases hx : _smt_mem_eq32 p.key ((l.getD j2 dflt_pair).key) with
      | true => rfl
      | false => exact absurd hx hcon
    have hq'A : ({ l.getD j2 dflt_pair with order := l.length - (0 + j2) } : smt_pair)
        ∈ _smt_assign_from l.length 0 l :=
      (mem_assign_from l l.length 0 _).mpr ⟨j2, hlen, rfl⟩
    have hq'S : ({ l.getD j2 dflt_pair with order := l.length - (0 + j2) } : smt_pair)
        ∈ List.insertionSort _smt_le (_smt_assign_orders l) :=
      (List.mem_insertionSort _smt_le).mpr (by rw [_smt_assign_orders]; exact hq'A)
    have hle := dedup_min _ hsorted p hp _ hq'S htrue
    have hk0 : _smt_key_cmp p.key
        ({ l.getD j2 dflt_pair with order := l.length - (0 + j2) } : smt_pair).key = 0 :=
      (key_cmp_eq_zero_iff _ _).mpr htrue
    have hord := pair_le_order hle hk0
    rw [hpord] at hord
    simp only at hord
    omega
  have hfr := find_rev_of_max l p.key j hj
    (by rw [hpkey]; exact mem_eq32_refl _) hmax
  exact ⟨l.getD j dflt_pair, hfr, hpval.symm⟩

/-- C5: after a non-overflowing insert sequence and `normalize`, the pair
array is strictly increasing in the byte-31-first key order (hence no two
entries share a key), and every surviving pair carries the value of the
latest insert with its key. -/
theorem claim_C5 (ops : List (List Nat × List Nat)) (cap : Nat)
    (hcap : ops.length ≤ cap) :
    ∃ st, smt_insert_all ⟨[], cap⟩ ops = .ok st ∧
      List.Pairwise (fun p q => _smt_key_cmp p.key q.key < 0)
        (smt_state_normalize st.pairs) ∧
      ∀ p ∈ smt_state_normalize st.pairs,
        ∃ q, ops.reverse.find? (fun r => _smt_mem_eq32 p.key r.1) = some q ∧
          q.2 = p.value := by
  have h0 : smt_insert_all ⟨[], cap⟩ ops =
      .ok ⟨ops.map (fun q => ⟨q.1, q.2, 0⟩), cap⟩ := by
    have h := insert_all_appends ops [] cap (by simpa)
    simpa using h
  refine ⟨_, h0, ?_, ?_⟩
  · apply dedup_pairwise_lt
    exact List.sorted_insertionSort _smt_le _
  · intro p hp
    obtain ⟨q, hq, hqv⟩ := normalize_latest _ p hp
    rw [find_rev_eq_reverse_find, ← List.map_reverse, List.find?_map] at hq
    have hfun : ((fun r => _smt_mem_eq32 p.key r.key) ∘
        (fun q : List Nat × List Nat => (⟨q.1, q.2, 0⟩ : smt_pair))) =
        (fun r : List Nat × List Nat => _smt_mem_eq32 p.key r.1) := rfl
    rw [hfun] at hq
    obtain ⟨q0, hq0, hfq0⟩ := Option.map_eq_some'.mp hq
    refine ⟨q0, hq0, ?_⟩
    have hv := congrArg smt_pair.value hfq0
    simp only at hv
    rw [hv, hqv]

/-- C5 witness: two writes to the same key followed by a fresh key. -/
theorem claim_C5_witness :
    ∃ st, smt_insert_all ⟨[], 3⟩ [([1], [2]), ([1], [3])] = .ok st ∧
      List.Pairwise (fun p q => _smt_key_cmp p.key q.key < 0)
        (smt_state_normalize st.pairs) ∧
      ∀ p ∈ smt_state_normalize st.pairs,
        ∃ q, [([1], [2]), ([1], [3])].reverse.find?
            (fun r => _smt_mem_eq32 p.key r.1) = some q ∧
          q.2 = p.value :=
  claim_C5 [([1], [2]), ([1], [3])] 3 (by decide)

/-- C6 (amended): among the pairs (as carried through the order-assignment
phase of `normalize`) whose keys are equal, the retained pair is minimal in
the sort order, i.e. the pair with the LOWER `order` value — the most
recently inserted one — wins; the claim's "higher `order` wins" is refuted
by the counterexample. -/
theorem claim_C6_amended (l : List smt_pair) :
    ∀ p ∈ smt_state_normalize l, ∀ q ∈ _smt_assign_orders l,
      _smt_mem_eq32 p.key q.key = true → p.order ≤ q.order := by
  intro p hp q hq hkeq
  have hsorted : List.Pairwise _smt_le
      (List.insertionSort _smt_le (_smt_assign_orders l)) :=
    List.sorted_insertionSort _smt_le _
  rw [smt_state_normalize] at hp
  have hqS : q ∈ List.insertionSort _smt_le (_smt_assign_orders l) :=
    (List.mem_insertionSort _smt_le).mpr hq
  have hle := dedup_min _ hsorted p hp q hqS hkeq
  exact pair_le_order hle ((key_cmp_eq_zero_iff _ _).mpr hkeq)

/-- Two pairs with the same key, in insertion order. -/
def c6_list : List smt_pair :=
  [⟨s2_key, List.replicate 32 0, 0⟩, ⟨s2_key, List.replicate 32 1, 0⟩]

/-- C6 counterexample: `normalize` assigns orders 2 and 1 to the two
key-equal pairs, and the pair retained is the one with order 1 — the pair
with the HIGHER order (2) is dropped, refuting "higher order wins". -/
theorem claim_C6_counterexample :
    smt_state_normalize c6_list = [⟨s2_key, List.replicate 32 1, 1⟩] ∧
    (⟨s2_key, List.replicate 32 0, 2⟩ : smt_pair) ∈ _smt_assign_orders c6_list ∧
    (⟨s2_key, List.replicate 32 0, 2⟩ : smt_pair) ∉ smt_state_normalize c6_list ∧
    (1 : Nat) < 2 := by
  refine ⟨by decide, by decide, by decide, by decide⟩

/-- C6 witness: in the counterexample list the retained pair's order (1) is
at most the order of every key-equal assigned pair. -/
theorem claim_C6_witness :
    (⟨s2_key, List.replicate 32 1, 1⟩ : smt_pair).order ≤
      (⟨s2_key, List.replicate 32 0, 2⟩ : smt_pair).order :=
  claim_C6_amended c6_list _ (by decide) _ (by decide) (by decide)
